import Mathlib

set_option linter.unusedVariables false

/-!
# Verification of the scheduling-assistant engine

Shallow embedding of `src/Scheduling_Assistant_Project.py` (classes `Task`
and `TaskManager`) together with proofs of the specified properties.

Modelling conventions:
* `datetime` timestamps are modelled as integers counting minutes
  (the shell parses deadlines at minute granularity, format `%Y-%m-%d %H:%M`);
  `timedelta(minutes=d)` is integer addition of `d`, `timedelta(hours=i)`
  is addition of `60 * i`, and `(b - a).total_seconds() // 3600` is
  `(b - a) / 60` rounded down.
* `datetime.now()` is an explicit `now : Int` parameter of the operations
  that read the clock (`schedule_tasks`, `remind_tasks`).
* Python exceptions are modelled with `Except String`.  The class `Task`
  defines neither `__lt__` nor `__eq__`, so whenever tuple comparison of
  two distinct heap entries `(priority, deadline, task)` falls through to
  the `Task` components — i.e. exactly when the two entries agree on
  `(priority, deadline)` — CPython raises `TypeError`.  (Stored `Task`
  objects are pairwise distinct objects in every run of the program: each
  is freshly constructed before being pushed, so identity-equality of the
  third components never applies.)
* Methods that mutate `self` are state-passing functions returning the new
  `TaskManager`; methods that only read `self` are pure functions of it.
  Plotting and `print` calls produce no data and are dropped; for the
  functions whose specified output is the data behind the rendering
  (`remind_tasks`, `analyze_task_density`) the embedding returns that data.
-/

namespace Scheduling

/-- `Task` from the source: `name`, `task_type` (`"academic"`/`"personal"`),
`deadline` (a `datetime`, modelled as an integer timestamp in minutes),
`priority` (integer, lower = higher priority), `duration` (minutes). -/
structure Task where
  name : String
  task_type : String
  deadline : Int
  priority : Int
  duration : Int
deriving DecidableEq, Repr

/-- A heap entry `(task.priority, task.deadline, task)` — the triples that
`add_task` pushes onto `self.tasks`. -/
abbrev Entry := Int × Int × Task

/-- The `Task` component of an entry (`x[2]` in Python). -/
def taskOf (e : Entry) : Task := e.2.2

/-- `TaskManager.__init__`: `self.tasks` (the heap list), `self.schedule`
(last computed schedule), `self.completed_tasks` (the archive). -/
structure TaskManager where
  tasks : List Entry
  schedule : List Task
  completed_tasks : List Task
deriving DecidableEq, Repr

/-- Python `<` on two heap entries: tuple comparison compares `priority`,
then `deadline`; on equality of both it falls through to comparing the
`Task` objects, which raises `TypeError` (`Task` defines no ordering and
the stored objects are distinct). -/
def entryLt (a b : Entry) : Except String Bool :=
  if a.1 = b.1 then
    if a.2.1 = b.2.1 then .error "TypeError: unorderable Task instances"
    else .ok (decide (a.2.1 < b.2.1))
  else .ok (decide (a.1 < b.1))

/-- `heapq._siftdown(heap, startpos, pos)`: walk from `pos` towards
`startpos`, moving each parent greater than `newitem` down, and finally
store `newitem`; every comparison is `newitem < parent` and may raise. -/
def siftdownAux (heap : List Entry) (newitem : Entry) (startpos pos : Nat) :
    Except String (List Entry) :=
  if h : startpos < pos then
    let parentpos := (pos - 1) / 2
    match heap[parentpos]? with
    | none => .error "IndexError"
    | some parent =>
      match entryLt newitem parent with
      | .error e => .error e
      | .ok true => siftdownAux (heap.set pos parent) newitem startpos parentpos
      | .ok false => .ok (heap.set pos newitem)
  else .ok (heap.set pos newitem)
termination_by pos
decreasing_by omega

/-- `heapq.heappush(heap, item)`: append `item`, then sift it down from the
last position towards the root. -/
def heappush (heap : List Entry) (item : Entry) : Except String (List Entry) :=
  let heap2 := heap ++ [item]
  siftdownAux heap2 item 0 (heap2.length - 1)

/-- `TaskManager.add_task`: `heappush(self.tasks, (task.priority, task.deadline, task))`. -/
def add_task (m : TaskManager) (t : Task) : Except String TaskManager :=
  match heappush m.tasks (t.priority, t.deadline, t) with
  | .error e => .error e
  | .ok h => .ok { m with tasks := h }

/-- `TaskManager.merge`: merge two runs, repeatedly taking the head with the
smaller key; on `key(left[i]) <= key(right[j])` the left element is taken
first, which is what makes the sort stable. -/
def pymerge {α β : Type} [LinearOrder β] (key : α → β) :
    List α → List α → List α
  | [], r => r
  | l, [] => l
  | a :: l, b :: r =>
    if key a ≤ key b then a :: pymerge key l (b :: r)
    else b :: pymerge key (a :: l) r
termination_by l r => l.length + r.length

/-- `TaskManager.merge_sort`: length ≤ 1 is returned as-is, otherwise split
at `len(tasks) // 2`, sort both halves recursively and merge them. -/
def merge_sort {α β : Type} [LinearOrder β] (key : α → β) (tasks : List α) :
    List α :=
  if tasks.length ≤ 1 then tasks
  else
    pymerge key (merge_sort key (tasks.take (tasks.length / 2)))
      (merge_sort key (tasks.drop (tasks.length / 2)))
termination_by tasks.length
decreasing_by
  · simp only [List.length_take]; omega
  · simp only [List.length_drop]; omega

/-- `TaskManager.get_upcoming_tasks`: sort a copy of `self.tasks` by the
entry's deadline component (`key=lambda x: x[1]`) and return the `Task`
components.  Neither `merge_sort` (which slices, i.e. copies) nor the list
comprehension assigns to `self` or to the stored list, so the manager is
returned unchanged. -/
def get_upcoming_tasks (m : TaskManager) : TaskManager × List Task :=
  (m, (merge_sort (fun e : Entry => e.2.1) m.tasks).map taskOf)

/-- The `(priority, deadline)` prefix of an entry's tuple key. -/
def pdKey (e : Entry) : Int × Int := (e.1, e.2.1)

/-- `True` iff no two entries of the list share the same
`(priority, deadline)` prefix. -/
def distinctKeys : List Entry → Bool
  | [] => true
  | e :: rest => rest.all (fun f => pdKey f ≠ pdKey e) && distinctKeys rest

/-- The tuple key used by Python's `sorted(self.tasks)`: lexicographic on
`(priority, deadline)` before it would reach the `Task` component. -/
def entryKey (e : Entry) : Int ×ₗ Int := toLex (e.1, e.2.1)

/-- Python's builtin `sorted(self.tasks)` on `(priority, deadline, Task)`
tuples.  Whenever two distinct entries tie on `(priority, deadline)`, the
sort must compare them directly and tuple comparison falls through to the
unorderable `Task` objects, raising `TypeError`; with all key prefixes
distinct it returns the unique ordering by `(priority, deadline)`
lexicographically (computed here by the stable merge sort, with which every
correct comparison sort agrees on distinct keys). -/
def sortedEntries (l : List Entry) : Except String (List Entry) :=
  if distinctKeys l then .ok (merge_sort entryKey l)
  else .error "TypeError: unorderable Task instances"

/-- The accept/reject loop of `schedule_tasks`: for each entry in order,
accept iff `current_time + timedelta(minutes=task.duration) <= deadline`
(the entry's deadline component), advancing the clock on acceptance. -/
def scheduleLoop (current_time : Int) : List Entry → List Task
  | [] => []
  | e :: rest =>
    if current_time + (taskOf e).duration ≤ e.2.1 then
      taskOf e :: scheduleLoop (current_time + (taskOf e).duration) rest
    else scheduleLoop current_time rest

/-- `TaskManager.schedule_tasks`: sort `self.tasks` with the builtin
`sorted`, then greedily accept each task that still fits before its
deadline; the result is stored in `self.schedule` and returned. -/
def schedule_tasks (m : TaskManager) (now : Int) :
    Except String (TaskManager × List Task) :=
  match sortedEntries m.tasks with
  | .error e => .error e
  | .ok l =>
    let s := scheduleLoop now l
    .ok ({ m with schedule := s }, s)

/-- `TaskManager.analyze_task_density` (the data behind the plot): collect
`task.deadline` for every stored entry; on an empty store report nothing;
otherwise sort the deadlines, build hourly bucket timestamps from the
earliest deadline up to the latest (`range(int((last-first).total_seconds()
// 3600) + 1)`), and pair each bucket with the number of deadlines at or
before it. -/
def analyze_task_density (m : TaskManager) : List (Int × Nat) :=
  let deadlines := m.tasks.map fun e => (taskOf e).deadline
  if deadlines.isEmpty then []
  else
    let ds := merge_sort (fun d : Int => d) deadlines
    let d0 := ds.headD 0
    let dlast := ds.getLastD 0
    let density_times :=
      (List.range ((dlast - d0).toNat / 60 + 1)).map
        fun i : Nat => d0 + 60 * (i : Int)
    density_times.map fun tm => (tm, (ds.filter fun d => decide (d ≤ tm)).length)

/-- `TaskManager.remind_tasks` (the data behind the printout): partition the
stored entries by `deadline < current_time` on the entry's deadline
component, keep the `Task` components, and sort each group by
`task.priority` with Python's stable `list.sort` — modelled by the stable
merge sort, with which every stable sort by the same total key agrees.
The method reads `self.tasks` and sorts only the two local lists, so the
manager is unchanged. -/
def remind_tasks (m : TaskManager) (now : Int) : List Task × List Task :=
  let overdue := (m.tasks.filter fun e => decide (e.2.1 < now)).map taskOf
  let pending := (m.tasks.filter fun e => !decide (e.2.1 < now)).map taskOf
  (merge_sort Task.priority overdue, merge_sort Task.priority pending)

/-- The search-and-delete loop of `mark_task_as_completed`: find the first
entry whose task's `name` matches, return its task and the list with that
entry removed; `none` when no entry matches. -/
def removeFirstByName (name : String) : List Entry → Option (Task × List Entry)
  | [] => none
  | e :: rest =>
    if (taskOf e).name = name then some (taskOf e, rest)
    else
      match removeFirstByName name rest with
      | some (t, l) => some (t, e :: l)
      | none => none

/-- `TaskManager.mark_task_as_completed`: linear scan for the first entry
whose task name matches; on a hit append that task to
`self.completed_tasks` and delete the entry from `self.tasks` (reported as
`true`); otherwise leave everything unchanged (reported as `false`). -/
def mark_task_as_completed (m : TaskManager) (name : String) :
    TaskManager × Bool :=
  match removeFirstByName name m.tasks with
  | some (t, rest) =>
    ({ m with tasks := rest, completed_tasks := m.completed_tasks ++ [t] }, true)
  | none => (m, false)

/-- `TaskManager.view_completed_tasks`: the archive in insertion order. -/
def view_completed_tasks (m : TaskManager) : List Task :=
  m.completed_tasks

/-- The tasks currently held in the store, in store order. -/
def activeTasks (m : TaskManager) : List Task := m.tasks.map taskOf

/-- Store well-formedness: every entry's key components are the stored
task's own `priority` and `deadline` — true of every reachable state, since
`add_task` builds each entry as `(task.priority, task.deadline, task)` and
no operation re-keys an entry. -/
def EntriesWF (l : List Entry) : Prop :=
  ∀ e ∈ l, e.1 = (taskOf e).priority ∧ e.2.1 = (taskOf e).deadline

/-- Feasibility of a schedule started at `start`: every scheduled task ends
(start plus the cumulative duration of the tasks up to and including it)
no later than its own deadline. -/
def Feasible (start : Int) (sched : List Task) : Prop :=
  ∀ i (hi : i < sched.length),
    start + ((sched.take (i + 1)).map Task.duration).sum ≤
      (sched.get ⟨i, hi⟩).deadline

/-! ## Concrete stores used by witnesses and counterexamples -/

/-- Task A of the spec scenario: priority 1, deadline T+60 min, duration 30. -/
def taskA : Task := ⟨"A", "academic", 60, 1, 30⟩

/-- Task B of the spec scenario: priority 2, deadline T+45 min, duration 30. -/
def taskB : Task := ⟨"B", "personal", 45, 2, 30⟩

/-- Store holding exactly A and B, with current time T = 0. -/
def mAB : TaskManager := ⟨[(1, 60, taskA), (2, 45, taskB)], [], []⟩

def taskP : Task := ⟨"P", "personal", 100, 1, 10⟩

def taskQ : Task := ⟨"Q", "academic", 100, 1, 20⟩

/-- Store with two distinct tasks tying exactly on (priority, deadline). -/
def mPQ : TaskManager := ⟨[(1, 100, taskP), (1, 100, taskQ)], [], []⟩

def taskX : Task := ⟨"X", "academic", 200, 1, 15⟩

def taskY : Task := ⟨"Y", "personal", 200, 1, 5⟩

/-- Store holding only X; pushing Y (same priority and deadline) raises. -/
def mX : TaskManager := ⟨[(1, 200, taskX)], [], []⟩

def taskW : Task := ⟨"W", "academic", 100, 1, 10⟩

/-- One-task store used by several witnesses. -/
def mW : TaskManager := ⟨[(1, 100, taskW)], [], []⟩

/-- The freshly initialised manager: everything empty. -/
def mEmpty : TaskManager := ⟨[], [], []⟩

/-! ## Lemmas about the ordering routine -/

theorem pymerge_nil_left {α β : Type} [LinearOrder β] (key : α → β)
    (r : List α) : pymerge key [] r = r := by
  simp [pymerge]

theorem pymerge_nil_right {α β : Type} [LinearOrder β] (key : α → β)
    (l : List α) : pymerge key l [] = l := by
  cases l <;> simp [pymerge]

theorem pymerge_cons_cons {α β : Type} [LinearOrder β] (key : α → β)
    (a : α) (l : List α) (b : α) (r : List α) :
    pymerge key (a :: l) (b :: r) =
      if key a ≤ key b then a :: pymerge key l (b :: r)
      else b :: pymerge key (a :: l) r := by
  simp [pymerge]

theorem pymerge_perm {α β : Type} [LinearOrder β] (key : α → β) :
    (l r : List α) → (pymerge key l r).Perm (l ++ r)
  | [], r => by simp [pymerge_nil_left]
  | a :: l, [] => by simp [pymerge_nil_right]
  | a :: l, b :: r => by
    rw [pymerge_cons_cons]
    split
    · exact (pymerge_perm key l (b :: r)).cons a
    · exact ((pymerge_perm key (a :: l) r).cons b).trans List.perm_middle.symm
termination_by l r => l.length + r.length

theorem pymerge_sorted {α β : Type} [LinearOrder β] (key : α → β) :
    (l r : List α) →
      List.Sorted (fun x y => key x ≤ key y) l →
      List.Sorted (fun x y => key x ≤ key y) r →
      List.Sorted (fun x y => key x ≤ key y) (pymerge key l r)
  | [], r, _, hr => by simpa [pymerge_nil_left] using hr
  | a :: l, [], hl, _ => by simpa [pymerge_nil_right] using hl
  | a :: l, b :: r, hl, hr => by
    rw [pymerge_cons_cons]
    rw [List.sorted_cons] at hl hr
    split
    · next hab =>
      rw [List.sorted_cons]
      refine ⟨?_, pymerge_sorted key l (b :: r) hl.2 (List.sorted_cons.mpr hr)⟩
      intro x hx
      have hx2 : x ∈ l ++ (b :: r) := (pymerge_perm key l (b :: r)).mem_iff.mp hx
      rcases List.mem_append.mp hx2 with h1 | h1
      · exact hl.1 x h1
      · rcases List.mem_cons.mp h1 with rfl | h1
        · exact hab
        · exact hab.trans (hr.1 x h1)
    · next hab =>
      push_neg at hab
      rw [List.sorted_cons]
      refine ⟨?_, pymerge_sorted key (a :: l) r (List.sorted_cons.mpr hl) hr.2⟩
      intro x hx
      have hx2 : x ∈ (a :: l) ++ r := (pymerge_perm key (a :: l) r).mem_iff.mp hx
      rcases List.mem_append.mp hx2 with h1 | h1
      · rcases List.mem_cons.mp h1 with rfl | h1
        · exact hab.le
        · exact hab.le.trans (hl.1 x h1)
      · exact hr.1 x h1
termination_by l r => l.length + r.length

theorem pymerge_filter {α β : Type} [LinearOrder β] (key : α → β) (k : β) :
    (l r : List α) →
      List.Sorted (fun x y => key x ≤ key y) l →
      (pymerge key l r).filter (fun x => decide (key x = k)) =
        l.filter (fun x => decide (key x = k)) ++
          r.filter (fun x => decide (key x = k))
  | [], r, _ => by simp [pymerge_nil_left]
  | a :: l, [], _ => by simp [pymerge_nil_right]
  | a :: l, b :: r, hl => by
    rw [pymerge_cons_cons]
    split
    · next hab =>
      rw [List.filter_cons, List.filter_cons,
        pymerge_filter key k l (b :: r) hl.of_cons]
      split <;> simp
    · next hab =>
      push_neg at hab
      rw [List.filter_cons (x := b),
        pymerge_filter key k (a :: l) r hl]
      split
      · next hbk =>
        have hbk2 : key b = k := by simpa using hbk
        have hka : k < key a := hbk2 ▸ hab
        have hnone : (a :: l).filter (fun x => decide (key x = k)) = [] := by
          rw [List.filter_eq_nil_iff]
          intro x hx
          simp only [decide_eq_true_eq]
          rcases List.mem_cons.mp hx with rfl | h1
          · exact ne_of_gt hka
          · exact ne_of_gt (lt_of_lt_of_le hka ((List.sorted_cons.mp hl).1 x h1))
        rw [hnone]
        simp [List.filter_cons, hbk]
      · next hbk =>
        simp [List.filter_cons, hbk]
termination_by l r => l.length + r.length

theorem merge_sort_of_short {α β : Type} [LinearOrder β] (key : α → β)
    (l : List α) (h : l.length ≤ 1) : merge_sort key l = l := by
  rw [merge_sort]
  simp [h]

theorem merge_sort_perm {α β : Type} [LinearOrder β] (key : α → β)
    (l : List α) : (merge_sort key l).Perm l := by
  rw [merge_sort]
  split
  · exact List.Perm.refl _
  · next h =>
    refine (pymerge_perm key _ _).trans ?_
    refine ((merge_sort_perm key (l.take (l.length / 2))).append
      (merge_sort_perm key (l.drop (l.length / 2)))).trans ?_
    rw [List.take_append_drop]
termination_by l.length
decreasing_by
  · simp only [List.length_take]; omega
  · simp only [List.length_drop]; omega

theorem merge_sort_mem {α β : Type} [LinearOrder β] (key : α → β)
    (l : List α) (x : α) : x ∈ merge_sort key l ↔ x ∈ l :=
  (merge_sort_perm key l).mem_iff

theorem merge_sort_sorted {α β : Type} [LinearOrder β] (key : α → β)
    (l : List α) : List.Sorted (fun x y => key x ≤ key y) (merge_sort key l) := by
  rw [merge_sort]
  split
  · next h =>
    match l, h with
    | [], _ => exact List.sorted_nil
    | [a], _ => exact List.sorted_singleton a
  · next h =>
    exact pymerge_sorted key _ _
      (merge_sort_sorted key (l.take (l.length / 2)))
      (merge_sort_sorted key (l.drop (l.length / 2)))
termination_by l.length
decreasing_by
  · simp only [List.length_take]; omega
  · simp only [List.length_drop]; omega

theorem merge_sort_filter {α β : Type} [LinearOrder β] (key : α → β)
    (l : List α) (k : β) :
    (merge_sort key l).filter (fun x => decide (key x = k)) =
      l.filter (fun x => decide (key x = k)) := by
  rw [merge_sort]
  split
  · rfl
  · next h =>
    rw [pymerge_filter key k _ _ (merge_sort_sorted key _),
      merge_sort_filter key (l.take (l.length / 2)) k,
      merge_sort_filter key (l.drop (l.length / 2)) k,
      ← List.filter_append, List.take_append_drop]
termination_by l.length
decreasing_by
  · simp only [List.length_take]; omega
  · simp only [List.length_drop]; omega

/-! ## The scheduler -/

theorem feasible_nil (start : Int) : Feasible start [] := by
  intro i hi
  simp at hi

theorem feasible_cons {start : Int} {t : Task} {S : List Task}
    (h1 : start + t.duration ≤ t.deadline)
    (h2 : Feasible (start + t.duration) S) : Feasible start (t :: S) := by
  intro i hi
  cases i with
  | zero => simpa using h1
  | succ j =>
    have hj : j < S.length := by simpa using hi
    have hS := h2 j hj
    simp only [List.take_succ_cons, List.map_cons, List.sum_cons,
      List.get_cons_succ]
    omega

theorem scheduleLoop_feasible :
    (l : List Entry) → EntriesWF l → ∀ clock : Int,
      Feasible clock (scheduleLoop clock l)
  | [], _, clock => by simpa [scheduleLoop] using feasible_nil clock
  | e :: rest, hwf, clock => by
    have hwfe := hwf e (List.mem_cons_self e rest)
    have hwfr : EntriesWF rest := fun f hf => hwf f (List.mem_cons_of_mem e hf)
    simp only [scheduleLoop]
    split
    · next hacc =>
      exact feasible_cons (hwfe.2 ▸ hacc) (scheduleLoop_feasible rest hwfr _)
    · exact scheduleLoop_feasible rest hwfr clock

theorem sortedEntries_ok {l sl : List Entry} (h : sortedEntries l = .ok sl) :
    sl = merge_sort entryKey l := by
  unfold sortedEntries at h
  split at h
  · exact (Except.ok.inj h).symm
  · exact absurd h (by simp)

theorem schedule_tasks_ok {m : TaskManager} {now : Int}
    {p : TaskManager × List Task} (h : schedule_tasks m now = .ok p) :
    p = ({ m with schedule := scheduleLoop now (merge_sort entryKey m.tasks) },
      scheduleLoop now (merge_sort entryKey m.tasks)) := by
  unfold schedule_tasks at h
  cases hs : sortedEntries m.tasks with
  | error e => rw [hs] at h; exact absurd h (by simp)
  | ok l =>
    rw [hs] at h
    have hl := sortedEntries_ok hs
    subst hl
    exact (Except.ok.inj h).symm

/-- **C1**: for every well-formed store state and fixed current time, every
task in a schedule returned by `schedule_tasks` ends — current time plus the
cumulative duration of the accepted tasks up to and including it — no later
than its own deadline. -/
theorem schedule_tasks_feasibility (m : TaskManager) (now : Int)
    (hwf : EntriesWF m.tasks) (p : TaskManager × List Task)
    (h : schedule_tasks m now = .ok p) :
    ∀ i (hi : i < p.2.length),
      now + ((p.2.take (i + 1)).map Task.duration).sum ≤
        (p.2.get ⟨i, hi⟩).deadline := by
  have hp := schedule_tasks_ok h
  have hwfs : EntriesWF (merge_sort entryKey m.tasks) := fun f hf =>
    hwf f ((merge_sort_mem entryKey m.tasks f).mp hf)
  have := scheduleLoop_feasible (merge_sort entryKey m.tasks) hwfs now
  rw [hp]
  exact this

/-- Witness for C1: on the one-task store `mW` at time 0, the scheduled
task W ends at minute 10, before its deadline at minute 100. -/
theorem schedule_tasks_feasibility_witness :
    (0 : Int) + (([taskW].take 1).map Task.duration).sum ≤ taskW.deadline := by
  have hwf : EntriesWF mW.tasks := by
    intro e he
    simp [mW, taskOf, taskW] at he
    simp [he, taskOf, taskW]
  have hok : schedule_tasks mW 0 =
      .ok ({ mW with schedule := [taskW] }, [taskW]) := by
    simp +decide [schedule_tasks, sortedEntries, distinctKeys, merge_sort,
      scheduleLoop, mW, taskW, entryKey, pdKey, taskOf]
  have h := schedule_tasks_feasibility mW 0 hwf _ hok 0 (by simp)
  simpa using h

/-- **C4**: `schedule_tasks` never changes the store contents (nor the
archive); a successful call returns a manager on which an immediate second
call with the same time returns the very same manager and sequence. -/
theorem schedule_tasks_nondestructive (m : TaskManager) (now : Int)
    (p : TaskManager × List Task) (h : schedule_tasks m now = .ok p) :
    p.1.tasks = m.tasks ∧ p.1.completed_tasks = m.completed_tasks ∧
      schedule_tasks p.1 now = .ok (p.1, p.2) := by
  have hp := schedule_tasks_ok h
  cases hdk : distinctKeys m.tasks with
  | false =>
    exfalso
    unfold schedule_tasks sortedEntries at h
    rw [hdk] at h
    simp at h
  | true =>
    rw [hp]
    refine ⟨rfl, rfl, ?_⟩
    simp [schedule_tasks, sortedEntries, hdk]

/-- Witness for C4: a successful run on the two-task scenario store. -/
theorem schedule_tasks_nondestructive_witness :
    ({ mAB with schedule := [taskA] } : TaskManager).tasks = mAB.tasks ∧
      ({ mAB with schedule := [taskA] } : TaskManager).completed_tasks =
        mAB.completed_tasks ∧
      schedule_tasks { mAB with schedule := [taskA] } 0 =
        .ok ({ mAB with schedule := [taskA] }, [taskA]) := by
  have hok : schedule_tasks mAB 0 =
      .ok ({ mAB with schedule := [taskA] }, [taskA]) := by
    simp +decide [schedule_tasks, sortedEntries, distinctKeys, merge_sort,
      pymerge, scheduleLoop, mAB, taskA, taskB, entryKey, pdKey, taskOf]
  exact schedule_tasks_nondestructive mAB 0 _ hok

/-- **C2 (amended)**: provided no two stored entries share the same
`(priority, deadline)` pair, `schedule_tasks` succeeds and examines the
active tasks in ascending `(priority, deadline)` order — the sorted pass is
a permutation of the store, sorted lexicographically — and runs the greedy
accept/reject loop (`scheduleLoop`: accept and advance the clock exactly
when `clock + duration ≤ deadline`, otherwise skip without advancing) over
that order.  The original tie-break clause cannot hold: on a
`(priority, deadline)` tie the code raises `TypeError` instead
(see the counterexample). -/
theorem schedule_tasks_greedy_order (m : TaskManager) (now : Int)
    (hd : distinctKeys m.tasks = true) :
    schedule_tasks m now =
      .ok ({ m with schedule := scheduleLoop now (merge_sort entryKey m.tasks) },
        scheduleLoop now (merge_sort entryKey m.tasks)) ∧
    (merge_sort entryKey m.tasks).Perm m.tasks ∧
    List.Sorted (fun a b : Entry =>
      a.1 < b.1 ∨ (a.1 = b.1 ∧ a.2.1 ≤ b.2.1)) (merge_sort entryKey m.tasks) := by
  refine ⟨?_, merge_sort_perm entryKey m.tasks, ?_⟩
  · simp [schedule_tasks, sortedEntries, hd]
  · have hs := merge_sort_sorted entryKey m.tasks
    refine hs.imp ?_
    intro a b hab
    exact (Prod.Lex.le_iff (a.1, a.2.1) (b.1, b.2.1)).mp hab

/-- Counterexample to C2 as stated: on the store `mPQ`, whose two tasks tie
exactly on `(priority, deadline)`, the code raises `TypeError` (no schedule
is returned), whereas the claimed stable tie-break would have examined both
tasks in insertion order and returned `[P, Q]`. -/
theorem schedule_tasks_tie_counterexample :
    (schedule_tasks mPQ 0).toOption = none ∧
      scheduleLoop 0 (merge_sort entryKey mPQ.tasks) = [taskP, taskQ] := by
  constructor
  · rfl
  · simp +decide [merge_sort, pymerge, scheduleLoop, mPQ, taskP, taskQ,
      entryKey, taskOf]

/-- Witness for C2 (the spec's concrete scenario): with A(priority 1,
deadline 60, duration 30) and B(priority 2, deadline 45, duration 30) at
time 0, A is tried first and accepted (0+30 ≤ 60), B is rejected
(30+30 > 45): the schedule is exactly `[A]`. -/
theorem schedule_tasks_greedy_order_witness :
    schedule_tasks mAB 0 = .ok ({ mAB with schedule := [taskA] }, [taskA]) := by
  have h := (schedule_tasks_greedy_order mAB 0 (by decide)).1
  rw [h]
  simp +decide [merge_sort, pymerge, scheduleLoop, mAB, taskA, taskB,
    entryKey, taskOf]

/-- **C3** (the code-side behaviour contradicting the claim): adding a task
whose `(priority, deadline)` pair equals that of a stored task raises
`TypeError` — `heappush` compares the new tuple with its parent, tuple
comparison falls through to the unorderable `Task` objects.  The claimed
totality ("core operations never throw on well-formed tasks") therefore
fails on this input. -/
theorem add_task_equal_keys_raises :
    add_task mX taskY = .error "TypeError: unorderable Task instances" := by
  simp +decide [add_task, heappush, siftdownAux, entryLt, mX, taskX, taskY]

/-! ## Completion -/

theorem removeFirstByName_some {name : String} :
    (l : List Entry) → {t : Task} → {l2 : List Entry} →
      removeFirstByName name l = some (t, l2) →
      ∃ pre e post, l = pre ++ e :: post ∧
        (∀ f ∈ pre, (taskOf f).name ≠ name) ∧
        (taskOf e).name = name ∧ t = taskOf e ∧ l2 = pre ++ post
  | [], t, l2, h => by simp [removeFirstByName] at h
  | e :: rest, t, l2, h => by
    rw [removeFirstByName] at h
    split at h
    · next hname =>
      obtain ⟨h1, h2⟩ := Prod.mk.injEq .. ▸ Option.some.inj h
      exact ⟨[], e, rest, by simp, by simp, hname, h1.symm, by simp [h2.symm]⟩
    · next hname =>
      cases hrec : removeFirstByName name rest with
      | none => rw [hrec] at h; simp at h
      | some q =>
        obtain ⟨t2, l3⟩ := q
        rw [hrec] at h
        obtain ⟨h1, h2⟩ := Prod.mk.injEq .. ▸ Option.some.inj h
        obtain ⟨pre, e2, post, hsplit, hpre, hmatch, ht, hl⟩ :=
          removeFirstByName_some rest hrec
        refine ⟨e :: pre, e2, post, by rw [List.cons_append, ← hsplit], ?_,
          hmatch, h1 ▸ ht, ?_⟩
        · intro f hf
          rcases List.mem_cons.mp hf with rfl | hf2
          · exact hname
          · exact hpre f hf2
        · rw [← h2, hl, List.cons_append]

theorem removeFirstByName_none {name : String} :
    (l : List Entry) → removeFirstByName name l = none →
      ∀ e ∈ l, (taskOf e).name ≠ name
  | [], _ => by intro e he; simp at he
  | e :: rest, h => by
    rw [removeFirstByName] at h
    split at h
    · simp at h
    · next hname =>
      intro f hf
      rcases List.mem_cons.mp hf with rfl | hf2
      · exact hname
      · cases hrec : removeFirstByName name rest with
        | none => exact removeFirstByName_none rest hrec f hf2
        | some q =>
          rw [hrec] at h
          rcases q with ⟨a, b⟩
          simp at h

theorem removeFirstByName_eq_none {name : String} :
    (l : List Entry) → (∀ e ∈ l, (taskOf e).name ≠ name) →
      removeFirstByName name l = none
  | [], _ => rfl
  | e :: rest, hall => by
    rw [removeFirstByName]
    rw [if_neg (hall e (List.mem_cons_self e rest))]
    rw [removeFirstByName_eq_none rest
      (fun f hf => hall f (List.mem_cons_of_mem e hf))]

/-- **C5**: if some stored entry's task is named `name`,
`mark_task_as_completed` removes exactly the first such entry (in store
order) from the store, appends that task once to the end of the archive —
so the named task occurs in the archive exactly once more than before —
and reports success; if no entry matches, the whole manager is unchanged
and failure is reported. -/
theorem mark_task_as_completed_spec (m : TaskManager) (name : String) :
    ((∃ e ∈ m.tasks, (taskOf e).name = name) →
      ∃ pre e post,
        m.tasks = pre ++ e :: post ∧
        (∀ f ∈ pre, (taskOf f).name ≠ name) ∧
        (taskOf e).name = name ∧
        mark_task_as_completed m name =
          ({ m with
              tasks := pre ++ post
              completed_tasks := m.completed_tasks ++ [taskOf e] }, true) ∧
        ((m.completed_tasks ++ [taskOf e]).filter
            (fun t => decide (t.name = name))).length =
          (m.completed_tasks.filter (fun t => decide (t.name = name))).length
            + 1) ∧
    ((∀ e ∈ m.tasks, (taskOf e).name ≠ name) →
      mark_task_as_completed m name = (m, false)) := by
  constructor
  · intro hex
    cases hr : removeFirstByName name m.tasks with
    | none =>
      obtain ⟨e, hmem, hname⟩ := hex
      exact absurd hname (removeFirstByName_none m.tasks hr e hmem)
    | some q =>
      obtain ⟨t, rest⟩ := q
      obtain ⟨pre, e, post, hsplit, hpre, hmatch, ht, hl⟩ :=
        removeFirstByName_some m.tasks hr
      subst ht
      subst hl
      refine ⟨pre, e, post, hsplit, hpre, hmatch, ?_, ?_⟩
      · rw [mark_task_as_completed, hr]
      · rw [List.filter_append]
        simp [hmatch]
  · intro hall
    rw [mark_task_as_completed, removeFirstByName_eq_none m.tasks hall]

/-- Witness for C5: completing "B" on the A/B store removes B's entry (the
first and only match, with the non-matching A entry before it) and appends
B once to the empty archive. -/
theorem mark_task_as_completed_spec_witness :
    ∃ pre e post,
      mAB.tasks = pre ++ e :: post ∧
      (∀ f ∈ pre, (taskOf f).name ≠ "B") ∧
      (taskOf e).name = "B" ∧
      mark_task_as_completed mAB "B" =
        ({ mAB with
            tasks := pre ++ post
            completed_tasks := mAB.completed_tasks ++ [taskOf e] }, true) ∧
      ((mAB.completed_tasks ++ [taskOf e]).filter
          (fun t => decide (t.name = "B"))).length =
        (mAB.completed_tasks.filter (fun t => decide (t.name = "B"))).length
          + 1 :=
  (mark_task_as_completed_spec mAB "B").1 ⟨(2, 45, taskB), by decide, by decide⟩

/-- **C6**: for every input sequence and key, `merge_sort` returns a
permutation of the input, sorted by the key in ascending order, stably —
a filter to any single key value is unchanged, i.e. equal-key elements keep
their relative input order (the merge takes the left-half element first on
key equality) — and sequences of length at most 1 are returned as-is. -/
theorem merge_sort_correct {α β : Type} [LinearOrder β] (key : α → β)
    (l : List α) :
    (merge_sort key l).Perm l ∧
    List.Sorted (fun x y => key x ≤ key y) (merge_sort key l) ∧
    (∀ k : β, (merge_sort key l).filter (fun x => decide (key x = k)) =
      l.filter (fun x => decide (key x = k))) ∧
    (l.length ≤ 1 → merge_sort key l = l) :=
  ⟨merge_sort_perm key l, merge_sort_sorted key l,
    fun k => merge_sort_filter key l k, merge_sort_of_short key l⟩

/-- Witness for C6: a singleton list is returned as-is. -/
theorem merge_sort_correct_witness :
    merge_sort (fun n : Int => n) [(7 : Int)] = [(7 : Int)] :=
  (merge_sort_correct (fun n : Int => n) [(7 : Int)]).2.2.2 (by decide)

/-- **C10**: `get_upcoming_tasks` leaves the store's entry list — indeed
the whole manager — unchanged: the source method only reads `self.tasks`
(`merge_sort` recurses on slice copies and `merge` builds a fresh result
list; no statement assigns to `self.tasks` or its elements), which the
embedding states as the returned manager being the input manager. -/
theorem get_upcoming_tasks_frame (m : TaskManager) :
    (get_upcoming_tasks m).1.tasks = m.tasks ∧ (get_upcoming_tasks m).1 = m :=
  ⟨rfl, rfl⟩

/-! ## Reminders and the upcoming view -/

theorem filter_map_taskOf (l : List Entry) (p : Task → Bool) :
    (l.map taskOf).filter p = (l.filter fun e => p (taskOf e)).map taskOf := by
  induction l with
  | nil => rfl
  | cons e rest ih =>
    simp only [List.map_cons, List.filter_cons]
    cases hp : p (taskOf e) <;> simp [hp, ih]

/-- **C8**: `get_upcoming_tasks` returns exactly the stored tasks (a
permutation of the store's tasks), ordered by deadline ascending, stably —
tasks sharing a deadline keep their store order — and the empty store gives
the empty sequence. -/
theorem get_upcoming_tasks_spec (m : TaskManager) (hwf : EntriesWF m.tasks) :
    (get_upcoming_tasks m).2.Perm (activeTasks m) ∧
    List.Sorted (fun a b : Task => a.deadline ≤ b.deadline)
      (get_upcoming_tasks m).2 ∧
    (∀ k : Int,
      (get_upcoming_tasks m).2.filter (fun t => decide (t.deadline = k)) =
        (activeTasks m).filter (fun t => decide (t.deadline = k))) ∧
    (m.tasks = [] → (get_upcoming_tasks m).2 = []) := by
  have hwfs : EntriesWF (merge_sort (fun e : Entry => e.2.1) m.tasks) :=
    fun f hf => hwf f ((merge_sort_mem (fun e : Entry => e.2.1) m.tasks f).mp hf)
  refine ⟨?_, ?_, ?_, ?_⟩
  · exact (merge_sort_perm (fun e : Entry => e.2.1) m.tasks).map taskOf
  · have hs := merge_sort_sorted (fun e : Entry => e.2.1) m.tasks
    exact List.pairwise_map.mpr (hs.imp_of_mem (fun ha hb hr => by
      rw [← (hwfs _ ha).2, ← (hwfs _ hb).2]
      exact hr))
  · intro k
    have h1 : (merge_sort (fun e : Entry => e.2.1) m.tasks).filter
        (fun e => decide ((taskOf e).deadline = k)) =
        (merge_sort (fun e : Entry => e.2.1) m.tasks).filter
          (fun e => decide (e.2.1 = k)) :=
      List.filter_congr (fun e he => by rw [(hwfs e he).2])
    have h2 := merge_sort_filter (fun e : Entry => e.2.1) m.tasks k
    have h3 : m.tasks.filter (fun e => decide (e.2.1 = k)) =
        m.tasks.filter (fun e => decide ((taskOf e).deadline = k)) :=
      (List.filter_congr (fun e he => by rw [(hwf e he).2])).symm
    show ((merge_sort (fun e : Entry => e.2.1) m.tasks).map taskOf).filter
        (fun t => decide (t.deadline = k)) =
      (m.tasks.map taskOf).filter (fun t => decide (t.deadline = k))
    rw [filter_map_taskOf, filter_map_taskOf]
    exact congrArg (List.map taskOf) (h1.trans (h2.trans h3))
  · intro h0
    show ((merge_sort (fun e : Entry => e.2.1) m.tasks).map taskOf) = []
    rw [h0, merge_sort_of_short (fun e : Entry => e.2.1) [] (by simp)]
    rfl

/-- Witness for C8: the empty store yields the empty sequence. -/
theorem get_upcoming_tasks_spec_witness : (get_upcoming_tasks mEmpty).2 = [] :=
  (get_upcoming_tasks_spec mEmpty
    (fun e he => absurd he (List.not_mem_nil e))).2.2.2 rfl

/-- **C7**: `remind_tasks` partitions the active tasks in two — a task goes
to the overdue group exactly when its deadline is strictly before `now`,
otherwise to the pending group, so the two groups together are a
permutation of the active set — and each group is sorted by priority
ascending, stably with respect to the store order of its group (the filter
characterisations).  `remind_tasks` reads the store without mutating it. -/
theorem remind_tasks_partition (m : TaskManager) (now : Int)
    (hwf : EntriesWF m.tasks) :
    ((remind_tasks m now).1 ++ (remind_tasks m now).2).Perm (activeTasks m) ∧
    (∀ t ∈ (remind_tasks m now).1, t.deadline < now) ∧
    (∀ t ∈ (remind_tasks m now).2, now ≤ t.deadline) ∧
    List.Sorted (fun a b : Task => a.priority ≤ b.priority)
      (remind_tasks m now).1 ∧
    List.Sorted (fun a b : Task => a.priority ≤ b.priority)
      (remind_tasks m now).2 ∧
    (∀ k : Int,
      (remind_tasks m now).1.filter (fun t => decide (t.priority = k)) =
        ((m.tasks.filter fun e => decide (e.2.1 < now)).map taskOf).filter
          (fun t => decide (t.priority = k))) ∧
    (∀ k : Int,
      (remind_tasks m now).2.filter (fun t => decide (t.priority = k)) =
        ((m.tasks.filter fun e => !decide (e.2.1 < now)).map taskOf).filter
          (fun t => decide (t.priority = k))) := by
  refine ⟨?_, ?_, ?_, ?_, ?_, ?_, ?_⟩
  · have h1 := merge_sort_perm Task.priority
      ((m.tasks.filter fun e => decide (e.2.1 < now)).map taskOf)
    have h2 := merge_sort_perm Task.priority
      ((m.tasks.filter fun e => !decide (e.2.1 < now)).map taskOf)
    refine (h1.append h2).trans ?_
    rw [← List.map_append]
    exact (List.filter_append_perm (fun e => decide (e.2.1 < now)) m.tasks).map
      taskOf
  · intro t ht
    have ht2 : t ∈ (m.tasks.filter fun e => decide (e.2.1 < now)).map taskOf :=
      (merge_sort_mem Task.priority _ t).mp ht
    obtain ⟨e, he, rfl⟩ := List.mem_map.mp ht2
    have hef := List.mem_filter.mp he
    have hwfe := (hwf e hef.1).2
    have hlt : e.2.1 < now := by simpa using hef.2
    rw [← hwfe]
    exact hlt
  · intro t ht
    have ht2 : t ∈ (m.tasks.filter fun e => !decide (e.2.1 < now)).map taskOf :=
      (merge_sort_mem Task.priority _ t).mp ht
    obtain ⟨e, he, rfl⟩ := List.mem_map.mp ht2
    have hef := List.mem_filter.mp he
    have hwfe := (hwf e hef.1).2
    have hge : ¬ e.2.1 < now := by simpa using hef.2
    rw [← hwfe]
    omega
  · exact merge_sort_sorted Task.priority _
  · exact merge_sort_sorted Task.priority _
  · intro k
    exact merge_sort_filter Task.priority _ k
  · intro k
    exact merge_sort_filter Task.priority _ k

/-- Witness for C7: on the empty store both reminder groups are empty. -/
theorem remind_tasks_partition_witness : remind_tasks mEmpty 0 = ([], []) := by
  have h := (remind_tasks_partition mEmpty 0
    (fun e he => absurd he (List.not_mem_nil e))).1
  have h2 : (remind_tasks mEmpty 0).1 ++ (remind_tasks mEmpty 0).2 = [] :=
    List.Perm.eq_nil ((show activeTasks mEmpty = [] from rfl) ▸ h)
  obtain ⟨ha, hb⟩ := List.append_eq_nil.mp h2
  have heta : remind_tasks mEmpty 0 =
      ((remind_tasks mEmpty 0).1, (remind_tasks mEmpty 0).2) := rfl
  rw [heta, ha, hb]

/-! ## Density analysis -/

theorem getLastD_default_irrelevant {α : Type} :
    (l : List α) → l ≠ [] → ∀ x y : α, l.getLastD x = l.getLastD y
  | [], hne, _, _ => absurd rfl hne
  | a :: t, _, x, y => by
    rw [List.getLastD_cons, List.getLastD_cons]

theorem sorted_headD_min {l : List Int}
    (hs : List.Sorted (fun a b : Int => a ≤ b) l)
    (dmin : Int) (hmem : dmin ∈ l) (hmin : ∀ d ∈ l, dmin ≤ d) :
    l.headD 0 = dmin := by
  cases l with
  | nil => simp at hmem
  | cons a t =>
    simp only [List.headD_cons]
    have h1 := hmin a (List.mem_cons_self a t)
    rcases List.mem_cons.mp hmem with rfl | h2
    · rfl
    · have h3 := (List.sorted_cons.mp hs).1 dmin h2
      omega

theorem sorted_getLastD_max :
    (l : List Int) → List.Sorted (fun a b : Int => a ≤ b) l →
      ∀ dmax : Int, dmax ∈ l → (∀ d ∈ l, d ≤ dmax) → l.getLastD 0 = dmax
  | [], _, dmax, hmem, _ => by simp at hmem
  | [a], _, dmax, hmem, _ => by
    simp at hmem
    simpa using hmem.symm
  | a :: b :: t, hs, dmax, hmem, hmax => by
    have hs2 := (List.sorted_cons.mp hs).2
    have hmemtail : dmax ∈ b :: t := by
      rcases List.mem_cons.mp hmem with rfl | h2
      · have hab : dmax ≤ b := (List.sorted_cons.mp hs).1 b (by simp)
        have hba : b ≤ dmax := hmax b (by simp)
        have : b = dmax := le_antisymm hba hab
        exact this ▸ List.mem_cons_self b t
      · exact h2
    have htail := sorted_getLastD_max (b :: t) hs2 dmax hmemtail
      (fun d hd => hmax d (List.mem_cons_of_mem a hd))
    rw [List.getLastD_cons,
      getLastD_default_irrelevant (b :: t) (by simp) a 0, htail]

theorem density_pairwise_aux (d0 : Int) (n : Nat) (cnt : Int → Nat) :
    List.Pairwise (fun a b : Int × Nat => a.1 < b.1)
      (((List.range n).map fun i : Nat => d0 + 60 * (i : Int)).map
        fun tm => (tm, cnt tm)) := by
  rw [List.pairwise_map, List.pairwise_map]
  refine (List.pairwise_lt_range n).imp ?_
  intro i j hij
  simp only []
  omega

/-- **C9**: on an empty store the density analysis reports nothing; in
general its bucket timestamps are strictly ascending; and whenever
`dmin`/`dmax` are the least and greatest stored deadlines, the result is
exactly one pair per hourly bucket `dmin + 60·i` up to `dmax`, carrying the
cumulative count of tasks whose deadline is at or before that bucket. -/
theorem analyze_task_density_spec (m : TaskManager) :
    (m.tasks = [] → analyze_task_density m = []) ∧
    List.Pairwise (fun a b : Int × Nat => a.1 < b.1)
      (analyze_task_density m) ∧
    (∀ dmin dmax : Int,
      dmin ∈ m.tasks.map (fun e => (taskOf e).deadline) →
      (∀ d ∈ m.tasks.map (fun e => (taskOf e).deadline), dmin ≤ d) →
      dmax ∈ m.tasks.map (fun e => (taskOf e).deadline) →
      (∀ d ∈ m.tasks.map (fun e => (taskOf e).deadline), d ≤ dmax) →
      analyze_task_density m =
        (List.range ((dmax - dmin).toNat / 60 + 1)).map fun i : Nat =>
          (dmin + 60 * (i : Int),
            ((m.tasks.map fun e => (taskOf e).deadline).filter
              (fun d => decide (d ≤ dmin + 60 * (i : Int)))).length)) := by
  refine ⟨?_, ?_, ?_⟩
  · intro h0
    simp [analyze_task_density, h0]
  · simp only [analyze_task_density]
    split
    · exact List.Pairwise.nil
    · exact density_pairwise_aux _ _ _
  · intro dmin dmax hminmem hmin hmaxmem hmax
    have hne : m.tasks.map (fun e => (taskOf e).deadline) ≠ [] := by
      intro hc
      rw [hc] at hminmem
      simp at hminmem
    have hsorted := merge_sort_sorted (fun d : Int => d)
      (m.tasks.map fun e => (taskOf e).deadline)
    have hmem : ∀ x : Int,
        x ∈ merge_sort (fun d : Int => d)
            (m.tasks.map fun e => (taskOf e).deadline) ↔
          x ∈ m.tasks.map fun e => (taskOf e).deadline :=
      fun x => merge_sort_mem (fun d : Int => d) _ x
    have hdsne : merge_sort (fun d : Int => d)
        (m.tasks.map fun e => (taskOf e).deadline) ≠ [] := by
      intro hc
      exact hne (List.eq_nil_of_length_eq_zero (by
        rw [← (merge_sort_perm (fun d : Int => d) _).length_eq, hc]
        rfl))
    have hhead : (merge_sort (fun d : Int => d)
        (m.tasks.map fun e => (taskOf e).deadline)).headD 0 = dmin :=
      sorted_headD_min hsorted dmin ((hmem dmin).mpr hminmem)
        (fun d hd => hmin d ((hmem d).mp hd))
    have hlast : (merge_sort (fun d : Int => d)
        (m.tasks.map fun e => (taskOf e).deadline)).getLastD 0 = dmax :=
      sorted_getLastD_max _ hsorted dmax ((hmem dmax).mpr hmaxmem)
        (fun d hd => hmax d ((hmem d).mp hd))
    simp only [analyze_task_density]
    rw [if_neg (by simpa [List.isEmpty_iff] using hne)]
    simp only [hhead, hlast, List.map_map]
    refine List.map_congr_left ?_
    intro i hi
    simp only [Function.comp]
    refine congrArg (fun c => (dmin + 60 * (i : Int), c)) ?_
    exact List.Perm.length_eq ((merge_sort_perm (fun d : Int => d) _).filter _)

/-- Witness for C9: on the A/B store the deadlines are 60 and 45, the span
is under an hour, so there is a single bucket at 45 counting one task. -/
theorem analyze_task_density_spec_witness :
    analyze_task_density mAB = [(45, 1)] := by
  have h := (analyze_task_density_spec mAB).2.2 45 60
    (by decide) (by decide) (by decide) (by decide)
  rw [h]
  decide

end Scheduling
